import Mathlib

/-!
Verification of the `win_prob` core: a truncated cubic polynomial algebra
(`Expr`, coefficients in `(p - 1/2)` powers, exact rationals) and the
memoized recursive solver `prob` computing the probability of winning a
race to `goal` points, Taylor-expanded around `p = 1/2` and truncated at
degree 3.  The embedding follows `src/win_prob/prob.py`.
-/

/-- The truncated polynomial `zero + one·x + two·x² + three·x³` with
`x = p - 1/2`; mirrors the frozen dataclass `Expr` with four `Fraction`
coefficients. -/
structure Expr where
  zero : ℚ
  one : ℚ
  two : ℚ
  three : ℚ
  deriving DecidableEq, Repr

/-- `Expr.__add__`: coefficientwise addition. -/
def Expr.add (a b : Expr) : Expr :=
  Expr.mk (a.zero + b.zero) (a.one + b.one) (a.two + b.two) (a.three + b.three)

/-- `Expr.__sub__`: coefficientwise subtraction. -/
def Expr.sub (a b : Expr) : Expr :=
  Expr.mk (a.zero - b.zero) (a.one - b.one) (a.two - b.two) (a.three - b.three)

/-- `Expr.__mul__`: polynomial multiplication truncated at degree 3; only the
displayed products appear in the source. -/
def Expr.mul (a b : Expr) : Expr :=
  Expr.mk (a.zero * b.zero)
    (a.zero * b.one + a.one * b.zero)
    (a.zero * b.two + a.one * b.one + a.two * b.zero)
    (a.zero * b.three + a.one * b.two + a.two * b.one + a.three * b.zero)

instance : Add Expr := ⟨Expr.add⟩

instance : Sub Expr := ⟨Expr.sub⟩

instance : Mul Expr := ⟨Expr.mul⟩

/-- The function `p()`: the polynomial `1/2 + 1·x`, i.e. the probability
variable `p` expanded around `1/2`. -/
def p : Expr := Expr.mk (1 / 2) 1 0 0

/-- The function `q()`: the polynomial `1/2 - 1·x`, i.e. `q = 1 - p`. -/
def q : Expr := Expr.mk (1 / 2) (-1) 0 0

/-- The solver `prob(win, lose, goal=30)`.  A Python `ValueError` is embedded
as `Except.error` carrying the message string; the recursive case evaluates
`p() * prob(win+1, lose, goal)` first and `q() * prob(win, lose+1, goal)`
second, exceptions propagating, exactly as the source line does. -/
def prob (win lose : ℤ) (goal : ℤ := 30) : Except String Expr :=
  if win > goal ∨ lose > goal then
    Except.error "Win or lose is over goal"
  else if win = goal then
    Except.ok (Expr.mk 1 0 0 0)
  else if lose = goal then
    Except.ok (Expr.mk 0 0 0 0)
  else do
    let a ← prob (win + 1) lose goal
    let b ← prob win (lose + 1) goal
    pure (p * a + q * b)
termination_by ((goal - win) + (goal - lose)).toNat
decreasing_by
  · omega
  · omega

lemma expr_add_def (a b : Expr) : a + b = Expr.add a b := rfl

lemma expr_mul_def (a b : Expr) : a * b = Expr.mul a b := rfl

/-- C1: for all integers `win, lose, goal` with `0 ≤ win < goal` and
`0 ≤ lose < goal`, `prob` satisfies the one-step recurrence exactly:
`prob win lose goal = p * prob (win+1) lose goal + q * prob win (lose+1) goal`
(in the `Except` monad, as the source line computes it), with
`p = (1/2, 1, 0, 0)` and `q = (1/2, -1, 0, 0)`. -/
theorem prob_recurrence (win lose goal : ℤ) (hw0 : 0 ≤ win) (hw : win < goal)
    (hl0 : 0 ≤ lose) (hl : lose < goal) :
    prob win lose goal = (do
      let a ← prob (win + 1) lose goal
      let b ← prob win (lose + 1) goal
      pure (p * a + q * b)) := by
  conv_lhs => rw [prob]
  rw [if_neg (by omega), if_neg (by omega), if_neg (by omega)]

/-- Witness for `prob_recurrence` at `(win, lose, goal) = (0, 0, 2)`. -/
theorem prob_recurrence_witness :
    (0 : ℤ) ≤ 0 ∧ (0 : ℤ) < 2 ∧
      prob 0 0 2 = (do
        let a ← prob 1 0 2
        let b ← prob 0 1 2
        pure (p * a + q * b)) :=
  ⟨by decide, by decide, prob_recurrence 0 0 2 (by decide) (by decide) (by decide) (by decide)⟩

/-- C2: terminal correctness: `prob goal lose goal = (1,0,0,0)` for every
`0 ≤ lose ≤ goal` with `goal ≥ 1`; `prob win goal goal = (0,0,0,0)` for every
`0 ≤ win < goal`; and at `goal = 0`, where `win = goal` and `lose = goal` hold
simultaneously, the `win = goal` branch takes precedence and `(1,0,0,0)` is
returned. -/
theorem prob_terminal (win lose goal : ℤ) (hg : 1 ≤ goal) (hl0 : 0 ≤ lose)
    (hl : lose ≤ goal) (hw0 : 0 ≤ win) (hw : win < goal) :
    prob goal lose goal = Except.ok (Expr.mk 1 0 0 0) ∧
      prob win goal goal = Except.ok (Expr.mk 0 0 0 0) ∧
      prob 0 0 0 = Except.ok (Expr.mk 1 0 0 0) := by
  refine ⟨?_, ?_, ?_⟩
  · rw [prob, if_neg (by omega), if_pos rfl]
  · rw [prob, if_neg (by omega), if_neg (by omega), if_pos rfl]
  · rw [prob]
    norm_num

/-- Witness for `prob_terminal` at `goal = 2`, `lose = 1`, `win = 0`. -/
theorem prob_terminal_witness :
    (1 : ℤ) ≤ 2 ∧
      (prob 2 1 2 = Except.ok (Expr.mk 1 0 0 0) ∧
        prob 0 2 2 = Except.ok (Expr.mk 0 0 0 0) ∧
        prob 0 0 0 = Except.ok (Expr.mk 1 0 0 0)) :=
  ⟨by decide, prob_terminal 0 1 2 (by decide) (by decide) (by decide) (by decide) (by decide)⟩

/-- C3: truncated multiplication computes exactly the four displayed
coefficients; no cross-term of combined degree ≥ 4 (`a.one * b.three`,
`a.two * b.two`, `a.three * b.three`, …) appears in any coefficient. -/
theorem mul_truncated (a b : Expr) :
    a * b = Expr.mk (a.zero * b.zero)
      (a.zero * b.one + a.one * b.zero)
      (a.zero * b.two + a.one * b.one + a.two * b.zero)
      (a.zero * b.three + a.one * b.two + a.two * b.one + a.three * b.zero) :=
  rfl

/-- C8: truncated multiplication is commutative. -/
theorem mul_comm_expr (a b : Expr) : a * b = b * a := by
  cases a
  cases b
  simp only [expr_mul_def, Expr.mul, Expr.mk.injEq]
  refine ⟨by ring, by ring, by ring, by ring⟩

/-- C9: the two distinguished constants sum to the multiplicative identity:
`p + q = (1, 0, 0, 0)`. -/
theorem p_add_q : p + q = Expr.mk 1 0 0 0 := by
  simp only [p, q, expr_add_def, Expr.add, Expr.mk.injEq]
  norm_num

/-- C10: omitting the `goal` argument defaults it to 30:
`prob win lose = prob win lose 30`. -/
theorem prob_default_goal (win lose : ℤ) : prob win lose = prob win lose 30 :=
  rfl

/-- On the valid domain `win ≤ goal`, `lose ≤ goal`, `prob` returns a value;
fuel induction on a bound for the measure `(goal - win) + (goal - lose)`. -/
lemma prob_ok_of_le : ∀ (n : ℕ) (win lose goal : ℤ),
    ((goal - win) + (goal - lose)).toNat ≤ n → win ≤ goal → lose ≤ goal →
    ∃ e, prob win lose goal = Except.ok e := by
  intro n
  induction n with
  | zero =>
    intro win lose goal hm hw hl
    refine ⟨Expr.mk 1 0 0 0, ?_⟩
    rw [prob, if_neg (by omega), if_pos (by omega : win = goal)]
  | succ n ih =>
    intro win lose goal hm hw hl
    by_cases hwin : win = goal
    · exact ⟨Expr.mk 1 0 0 0, by rw [prob, if_neg (by omega), if_pos hwin]⟩
    by_cases hlose : lose = goal
    · exact ⟨Expr.mk 0 0 0 0,
        by rw [prob, if_neg (by omega), if_neg hwin, if_pos hlose]⟩
    obtain ⟨a, ha⟩ := ih (win + 1) lose goal (by omega) (by omega) hl
    obtain ⟨b, hb⟩ := ih win (lose + 1) goal (by omega) hw (by omega)
    refine ⟨p * a + q * b, ?_⟩
    rw [prob, if_neg (by omega), if_neg hwin, if_neg hlose, ha, hb]
    rfl

/-- C4: `prob` raises the out-of-range `ValueError` exactly when `win > goal`
or `lose > goal`; on the complementary domain it returns a polynomial. -/
theorem prob_error_iff (win lose goal : ℤ) (hw : 0 ≤ win) (hl : 0 ≤ lose) :
    prob win lose goal = Except.error "Win or lose is over goal" ↔
      (win > goal ∨ lose > goal) := by
  constructor
  · intro h
    by_contra hc
    push_neg at hc
    obtain ⟨e, he⟩ := prob_ok_of_le _ win lose goal le_rfl hc.1 hc.2
    rw [he] at h
    exact Except.noConfusion h
  · intro h
    rw [prob, if_pos (by omega)]

/-- Witness for `prob_error_iff`: at `(3, 0, 2)` the error is raised. -/
theorem prob_error_iff_witness :
    (0 : ℤ) ≤ 3 ∧ (0 : ℤ) ≤ 0 ∧
      (prob 3 0 2 = Except.error "Win or lose is over goal" ↔
        ((3 : ℤ) > 2 ∨ (0 : ℤ) > 2)) :=
  ⟨by decide, by decide, prob_error_iff 3 0 2 (by decide) (by decide)⟩

/-- C5: on the valid domain each recursive call strictly decreases the
natural-number measure `(goal - win) + (goal - lose)`, and `prob` is total
there: it returns a polynomial. -/
theorem prob_terminates (win lose goal : ℤ) (hw0 : 0 ≤ win) (hw : win ≤ goal)
    (hl0 : 0 ≤ lose) (hl : lose ≤ goal) :
    (win < goal → lose < goal →
      ((goal - (win + 1)) + (goal - lose)).toNat <
          ((goal - win) + (goal - lose)).toNat ∧
        ((goal - win) + (goal - (lose + 1))).toNat <
          ((goal - win) + (goal - lose)).toNat) ∧
      ∃ e, prob win lose goal = Except.ok e :=
  ⟨fun h1 h2 => ⟨by omega, by omega⟩, prob_ok_of_le _ win lose goal le_rfl hw hl⟩

/-- Witness for `prob_terminates` at `(0, 0, 2)`. -/
theorem prob_terminates_witness :
    (0 : ℤ) ≤ 0 ∧ (0 : ℤ) ≤ 2 ∧
      ((0 < (2 : ℤ) → 0 < (2 : ℤ) →
        (((2 : ℤ) - (0 + 1)) + ((2 : ℤ) - 0)).toNat <
            (((2 : ℤ) - 0) + ((2 : ℤ) - 0)).toNat ∧
          (((2 : ℤ) - 0) + ((2 : ℤ) - (0 + 1))).toNat <
            (((2 : ℤ) - 0) + ((2 : ℤ) - 0)).toNat) ∧
        ∃ e, prob 0 0 2 = Except.ok e) :=
  ⟨by decide, by decide,
    prob_terminates 0 0 2 (by decide) (by decide) (by decide) (by decide)⟩

/-- The classical fair-coin race win probability: the spec-side reference
value for the state `(win, lose, goal)` when each point is won with
probability exactly `1/2`, defined by the standard one-step conditioning
recurrence with the first-to-`goal` boundary. -/
def fairRaceProb (win lose goal : ℤ) : ℚ :=
  if goal ≤ win then 1
  else if goal ≤ lose then 0
  else 1 / 2 * fairRaceProb (win + 1) lose goal
    + 1 / 2 * fairRaceProb win (lose + 1) goal
termination_by ((goal - win) + (goal - lose)).toNat
decreasing_by
  · omega
  · omega

/-- The degree-0 coefficient of `prob` equals the fair-coin race probability;
fuel induction on a bound for the recursion measure. -/
lemma prob_zero_eq_fair : ∀ (n : ℕ) (win lose goal : ℤ),
    ((goal - win) + (goal - lose)).toNat ≤ n → win ≤ goal → lose ≤ goal →
    ∀ e, prob win lose goal = Except.ok e →
    e.zero = fairRaceProb win lose goal := by
  intro n
  induction n with
  | zero =>
    intro win lose goal hm hw hl e he
    rw [prob, if_neg (by omega), if_pos (by omega : win = goal)] at he
    obtain rfl : Expr.mk 1 0 0 0 = e := by injection he
    rw [fairRaceProb, if_pos (by omega)]
  | succ n ih =>
    intro win lose goal hm hw hl e he
    by_cases hwin : win = goal
    · rw [prob, if_neg (by omega), if_pos hwin] at he
      obtain rfl : Expr.mk 1 0 0 0 = e := by injection he
      rw [fairRaceProb, if_pos (by omega)]
    by_cases hlose : lose = goal
    · rw [prob, if_neg (by omega), if_neg hwin, if_pos hlose] at he
      obtain rfl : Expr.mk 0 0 0 0 = e := by injection he
      rw [fairRaceProb, if_neg (by omega), if_pos (by omega)]
    obtain ⟨a, ha⟩ := prob_ok_of_le n (win + 1) lose goal (by omega) (by omega) hl
    obtain ⟨b, hb⟩ := prob_ok_of_le n win (lose + 1) goal (by omega) hw (by omega)
    rw [prob, if_neg (by omega), if_neg hwin, if_neg hlose, ha, hb] at he
    obtain rfl : p * a + q * b = e := by injection he
    have ha' := ih (win + 1) lose goal (by omega) (by omega) hl a ha
    have hb' := ih win (lose + 1) goal (by omega) hw (by omega) b hb
    rw [fairRaceProb, if_neg (by omega), if_neg (by omega), ← ha', ← hb']
    simp only [expr_add_def, expr_mul_def, Expr.add, Expr.mul, p, q]

lemma fair_2_1_2 : fairRaceProb 2 1 2 = 1 := by
  rw [fairRaceProb, if_pos (by omega)]

lemma fair_2_0_2 : fairRaceProb 2 0 2 = 1 := by
  rw [fairRaceProb, if_pos (by omega)]

lemma fair_1_2_2 : fairRaceProb 1 2 2 = 0 := by
  rw [fairRaceProb, if_neg (by omega), if_pos (by omega)]

lemma fair_0_2_2 : fairRaceProb 0 2 2 = 0 := by
  rw [fairRaceProb, if_neg (by omega), if_pos (by omega)]

lemma fair_1_1_2 : fairRaceProb 1 1 2 = 1 / 2 := by
  rw [fairRaceProb, if_neg (by omega), if_neg (by omega)]
  norm_num [fair_2_1_2, fair_1_2_2]

lemma fair_1_0_2 : fairRaceProb 1 0 2 = 3 / 4 := by
  rw [fairRaceProb, if_neg (by omega), if_neg (by omega)]
  norm_num [fair_2_0_2, fair_1_1_2]

lemma fair_0_1_2 : fairRaceProb 0 1 2 = 1 / 4 := by
  rw [fairRaceProb, if_neg (by omega), if_neg (by omega)]
  norm_num [fair_1_1_2, fair_0_2_2]

lemma fair_0_0_2 : fairRaceProb 0 0 2 = 1 / 2 := by
  rw [fairRaceProb, if_neg (by omega), if_neg (by omega)]
  norm_num [fair_1_0_2, fair_0_1_2]

/-- C6: over the valid domain, the degree-0 coefficient of `prob` — its value
at `x = 0`, i.e. at `p = 1/2` — equals the classical fair-coin race win
probability; in particular at `goal = 2` the degree-0 coefficient of
`prob 0 0 2` is `1/2`. -/
theorem prob_const_coeff_fair (win lose goal : ℤ) (hw0 : 0 ≤ win)
    (hw : win ≤ goal) (hl0 : 0 ≤ lose) (hl : lose ≤ goal) :
    (∀ e, prob win lose goal = Except.ok e →
      e.zero = fairRaceProb win lose goal) ∧
      ∃ e, prob 0 0 2 = Except.ok e ∧ e.zero = 1 / 2 := by
  refine ⟨fun e he => prob_zero_eq_fair _ win lose goal le_rfl hw hl e he, ?_⟩
  obtain ⟨e, he⟩ := prob_ok_of_le 4 0 0 2 (by decide) (by decide) (by decide)
  refine ⟨e, he, ?_⟩
  rw [prob_zero_eq_fair 4 0 0 2 (by decide) (by decide) (by decide) e he,
    fair_0_0_2]

/-- Witness for `prob_const_coeff_fair` at `(0, 0, 2)`. -/
theorem prob_const_coeff_fair_witness :
    (0 : ℤ) ≤ 0 ∧ (0 : ℤ) ≤ 2 ∧
      ((∀ e, prob 0 0 2 = Except.ok e → e.zero = fairRaceProb 0 0 2) ∧
        ∃ e, prob 0 0 2 = Except.ok e ∧ e.zero = 1 / 2) :=
  ⟨by decide, by decide,
    prob_const_coeff_fair 0 0 2 (by decide) (by decide) (by decide) (by decide)⟩

/-- Lookup in the association-list model of the `functools.cache` table:
keys are the call arguments `(win, lose, goal)`. -/
def lookupCache : List ((ℤ × ℤ × ℤ) × Expr) → ℤ × ℤ × ℤ → Option Expr
  | [], _ => none
  | (k, v) :: rest, key => if key = k then some v else lookupCache rest key

/-- The solver with the memoization table made explicit: the cache is
threaded through the recursion, a hit returns the stored value, and every
successful result is stored (a raised `ValueError` is not cached, matching
`functools.cache`). -/
def probMemo (win lose goal : ℤ) (c : List ((ℤ × ℤ × ℤ) × Expr)) :
    Except String Expr × List ((ℤ × ℤ × ℤ) × Expr) :=
  match lookupCache c (win, lose, goal) with
  | some v => (Except.ok v, c)
  | none =>
    if win > goal ∨ lose > goal then
      (Except.error "Win or lose is over goal", c)
    else if win = goal then
      (Except.ok (Expr.mk 1 0 0 0), ((win, lose, goal), Expr.mk 1 0 0 0) :: c)
    else if lose = goal then
      (Except.ok (Expr.mk 0 0 0 0), ((win, lose, goal), Expr.mk 0 0 0 0) :: c)
    else
      match probMemo (win + 1) lose goal c with
      | (Except.error e, c₁) => (Except.error e, c₁)
      | (Except.ok a, c₁) =>
        match probMemo win (lose + 1) goal c₁ with
        | (Except.error e, c₂) => (Except.error e, c₂)
        | (Except.ok b, c₂) =>
          (Except.ok (p * a + q * b), ((win, lose, goal), p * a + q * b) :: c₂)
termination_by ((goal - win) + (goal - lose)).toNat
decreasing_by
  · omega
  · omega

/-- A cache is consistent when every stored value is the value `prob`
computes for its key. -/
def CacheConsistent (c : List ((ℤ × ℤ × ℤ) × Expr)) : Prop :=
  ∀ w l g v, lookupCache c (w, l, g) = some v → prob w l g = Except.ok v

lemma cacheConsistent_nil : CacheConsistent [] := by
  intro w l g v hv
  simp [lookupCache] at hv

lemma cacheConsistent_cons {c : List ((ℤ × ℤ × ℤ) × Expr)}
    (win lose goal : ℤ) (v : Expr) (hc : CacheConsistent c)
    (hv : prob win lose goal = Except.ok v) :
    CacheConsistent (((win, lose, goal), v) :: c) := by
  intro w l g u hu
  rw [lookupCache] at hu
  by_cases hk : ((w : ℤ), (l : ℤ), (g : ℤ)) = (win, lose, goal)
  · rw [if_pos hk] at hu
    obtain ⟨rfl, rfl, rfl⟩ := Prod.mk.injEq .. ▸ hk
    · obtain rfl : v = u := by injection hu
      exact hv
  · rw [if_neg hk] at hu
    exact hc w l g u hu

/-- Starting from any consistent cache, the memoized solver returns exactly
what the memoization-free `prob` returns, and leaves the cache consistent. -/
lemma probMemo_spec : ∀ (n : ℕ) (win lose goal : ℤ)
    (c : List ((ℤ × ℤ × ℤ) × Expr)),
    ((goal - win) + (goal - lose)).toNat ≤ n → CacheConsistent c →
    (probMemo win lose goal c).1 = prob win lose goal ∧
      CacheConsistent (probMemo win lose goal c).2 := by
  intro n
  induction n using Nat.strong_induction_on with
  | _ n ih =>
    intro win lose goal c hm hc
    rw [probMemo]
    cases hlook : lookupCache c (win, lose, goal) with
    | some v =>
      exact ⟨(hc win lose goal v hlook).symm, hc⟩
    | none =>
      by_cases hout : win > goal ∨ lose > goal
      · rw [if_pos hout]
        exact ⟨by rw [prob, if_pos hout], hc⟩
      rw [if_neg hout]
      by_cases hwin : win = goal
      · rw [if_pos hwin]
        have hp : prob win lose goal = Except.ok (Expr.mk 1 0 0 0) := by
          rw [prob, if_neg hout, if_pos hwin]
        exact ⟨hp.symm, cacheConsistent_cons win lose goal _ hc hp⟩
      rw [if_neg hwin]
      by_cases hlose : lose = goal
      · rw [if_pos hlose]
        have hp : prob win lose goal = Except.ok (Expr.mk 0 0 0 0) := by
          rw [prob, if_neg hout, if_neg hwin, if_pos hlose]
        exact ⟨hp.symm, cacheConsistent_cons win lose goal _ hc hp⟩
      rw [if_neg hlose]
      obtain ⟨h1, hc1⟩ := ih (((goal - (win + 1)) + (goal - lose)).toNat)
        (by omega) (win + 1) lose goal c le_rfl hc
      cases hm1 : probMemo (win + 1) lose goal c with
      | mk r1 c₁ =>
      have h1' : r1 = prob (win + 1) lose goal := by rw [hm1] at h1; exact h1
      have hc1' : CacheConsistent c₁ := by rw [hm1] at hc1; exact hc1
      cases r1 with
      | error e =>
        refine ⟨?_, hc1'⟩
        rw [prob, if_neg hout, if_neg hwin, if_neg hlose, ← h1']
        rfl
      | ok a =>
        dsimp only
        obtain ⟨h2, hc2⟩ := ih (((goal - win) + (goal - (lose + 1))).toNat)
          (by omega) win (lose + 1) goal c₁ le_rfl hc1'
        cases hm2 : probMemo win (lose + 1) goal c₁ with
        | mk r2 c₂ =>
        have h2' : r2 = prob win (lose + 1) goal := by rw [hm2] at h2; exact h2
        have hc2' : CacheConsistent c₂ := by rw [hm2] at hc2; exact hc2
        cases r2 with
        | error e =>
          refine ⟨?_, hc2'⟩
          rw [prob, if_neg hout, if_neg hwin, if_neg hlose, ← h1', ← h2']
          rfl
        | ok b =>
          have hp : prob win lose goal = Except.ok (p * a + q * b) := by
            rw [prob, if_neg hout, if_neg hwin, if_neg hlose, ← h1', ← h2']
            rfl
          exact ⟨hp.symm, cacheConsistent_cons win lose goal _ hc2' hp⟩

/-- C7: memoization transparency: with the cache made explicit, a second call
with identical arguments (against the cache the first call produced) returns
the same value as the first call, and both agree with the cache-free,
deterministic `prob` — caching does not change the returned value. -/
theorem prob_memo_transparent (win lose goal : ℤ) :
    (probMemo win lose goal (probMemo win lose goal []).2).1 =
        (probMemo win lose goal []).1 ∧
      (probMemo win lose goal []).1 = prob win lose goal := by
  obtain ⟨h1, hc1⟩ := probMemo_spec (((goal - win) + (goal - lose)).toNat)
    win lose goal [] le_rfl cacheConsistent_nil
  obtain ⟨h2, _⟩ := probMemo_spec (((goal - win) + (goal - lose)).toNat)
    win lose goal _ le_rfl hc1
  exact ⟨h2.trans h1.symm, h1⟩
